import Mathlib

/-!
Shallow embedding of `d2tree` (src/mod.ts), an adaptive point quadtree with
insertion, removal, position update, box/radius/nearest queries, a shared
reverse index from items to their owning leaf, and a split/collapse policy.

Modelling conventions:
* Items are identified by natural numbers; the caller-supplied
  `getItemPosition` collaborator is an explicit parameter `pos : Item → ℚ × ℚ`
  (JS numbers are modelled as rationals; positions are always finite).
* Node bounds may be `±Infinity` (the root's are), so coordinates appearing in
  `min`/`max` use the extended type `XQ`.
* The shared mutable `Map` is modelled as an association list from items to
  root paths (`Path`); `Map.set` replaces in place, `Map.get` returns the
  first (unique) binding, mirroring JS `Map` semantics.
* `add` can cascade splits (a split re-inserts the leaf's items, which can
  re-trigger `shouldSplit` in a child), so it is defined with explicit fuel
  and returns `none` when the fuel runs out; theorems about "completed"
  operations hypothesise a `some` result, matching the spec's phrase
  "after every completed public operation".
-/

namespace D2

/-- Item identities (the tree stores references; we store ids). -/
abbrev Item := ℕ

/-- A finite plane point, as produced by `getItemPosition`. -/
abbrev Pt := ℚ × ℚ

/-- An extended coordinate: a JS number that may be `±Infinity`.  Only node
bounds can be infinite. -/
inductive XQ where
  | negInf : XQ
  | fin : ℚ → XQ
  | posInf : XQ
deriving DecidableEq

/-- JS `a <= b` on extended coordinates (`NaN` never arises in the model). -/
def XQ.le : XQ → XQ → Bool
  | .negInf, _ => true
  | _, .posInf => true
  | .fin a, .fin b => a ≤ b
  | .posInf, _ => false
  | .fin _, .negInf => false

/-- JS `a < b` on extended coordinates, via totality of the order. -/
def XQ.lt (a b : XQ) : Bool := !(XQ.le b a)

/-- A pair of extended coordinates: one corner of a node's bounds. -/
abbrev XPt := XQ × XQ

/-- A `D2Tree` node.  `leaf` has no `children`; `inner` has the `center` set
at split time and exactly four children in quadrant order 0..3 (the source
always creates `children` as a 4-element array literal).  Both carry the
`items` array; the source keeps `items` on internal nodes too (it is cleared
at the end of `split`). -/
inductive Tree where
  | leaf (mn mx : XPt) (items : List Item)
  | inner (mn mx : XPt) (center : Pt) (items : List Item)
      (c0 c1 c2 c3 : Tree)
deriving DecidableEq

/-- The node's `min` field. -/
def Tree.minB : Tree → XPt
  | .leaf mn _ _ => mn
  | .inner mn _ _ _ _ _ _ _ => mn

/-- The node's `max` field. -/
def Tree.maxB : Tree → XPt
  | .leaf _ mx _ => mx
  | .inner _ mx _ _ _ _ _ _ => mx

/-- The node's `items` field. -/
def Tree.its : Tree → List Item
  | .leaf _ _ l => l
  | .inner _ _ _ l _ _ _ _ => l

/-- The node's `center` field (initialised to `[0, 0]`; only meaningful, and
only read, on internal nodes). -/
def Tree.centerB : Tree → Pt
  | .leaf _ _ _ => (0, 0)
  | .inner _ _ c _ _ _ _ _ => c

/-- Whether the node has no `children`. -/
def Tree.isLeaf : Tree → Bool
  | .leaf _ _ _ => true
  | .inner _ _ _ _ _ _ _ _ => false

/-- A path from the root to a node: the child indices (0..3) taken.  Stands
in for the object reference JS stores in the reverse index. -/
abbrev Path := List ℕ

/-- The node reached from `t` by following child indices. -/
def nodeAt : Tree → Path → Option Tree
  | t, [] => some t
  | .leaf _ _ _, _ :: _ => none
  | .inner _ _ _ _ c0 _ _ _, 0 :: p => nodeAt c0 p
  | .inner _ _ _ _ _ c1 _ _, 1 :: p => nodeAt c1 p
  | .inner _ _ _ _ _ _ c2 _, 2 :: p => nodeAt c2 p
  | .inner _ _ _ _ _ _ _ c3, 3 :: p => nodeAt c3 p
  | .inner _ _ _ _ _ _ _ _, (_ + 4) :: _ => none

/-- Functional update of the node at a path (identity on an invalid path,
which never occurs on the paths the operations produce). -/
def modifyAt : Tree → Path → (Tree → Tree) → Tree
  | t, [], g => g t
  | .leaf mn mx l, _ :: _, _ => .leaf mn mx l
  | .inner mn mx c l c0 c1 c2 c3, 0 :: p, g => .inner mn mx c l (modifyAt c0 p g) c1 c2 c3
  | .inner mn mx c l c0 c1 c2 c3, 1 :: p, g => .inner mn mx c l c0 (modifyAt c1 p g) c2 c3
  | .inner mn mx c l c0 c1 c2 c3, 2 :: p, g => .inner mn mx c l c0 c1 (modifyAt c2 p g) c3
  | .inner mn mx c l c0 c1 c2 c3, 3 :: p, g => .inner mn mx c l c0 c1 c2 (modifyAt c3 p g)
  | .inner mn mx c l c0 c1 c2 c3, (_ + 4) :: _, _ => .inner mn mx c l c0 c1 c2 c3

/-- The `drill` method: the path of the leaf reached from `t` by repeated
quadrant comparison against each internal node's `center` (ties go to the
`≥` branch). -/
def drill : Tree → ℚ → ℚ → Path
  | .leaf _ _ _, _, _ => []
  | .inner _ _ c _ c0 c1 c2 c3, x, y =>
    if x < c.1 then
      if y < c.2 then 0 :: drill c0 x y else 1 :: drill c1 x y
    else
      if y < c.2 then 2 :: drill c2 x y else 3 :: drill c3 x y

/-- The reverse index `itemToTreeMap`, shared across the whole tree. -/
abbrev Idx := List (Item × Path)

/-- JS `Map.get`. -/
def mapGet : Idx → Item → Option Path
  | [], _ => none
  | (k', v') :: rest, k => if k' = k then some v' else mapGet rest k

/-- JS `Map.set`: replaces the binding in place if the key is present,
otherwise appends. -/
def mapSet : Idx → Item → Path → Idx
  | [], k, v => [(k, v)]
  | (k', v') :: rest, k, v =>
    if k' = k then (k, v) :: rest else (k', v') :: mapSet rest k v

/-- `Map.set` of every item of `l` to the path `v`, in order. -/
def setAll (m : Idx) (l : List Item) (v : Path) : Idx :=
  l.foldl (fun m' k => mapSet m' k v) m

/-- The whole mutable state one root owns: the node structure plus the shared
reverse index. -/
structure St where
  tree : Tree
  idx : Idx
deriving DecidableEq

/-- Whether every item of `l` has the same position as the first (the loop in
the `shouldSplit` getter). -/
def allSameAsHead (pos : Item → Pt) : List Item → Bool
  | [] => true
  | i0 :: rest => rest.all fun j => decide (pos j = pos i0)

/-- The `shouldSplit` getter: `false` when `items.length < density`,
otherwise `true` iff some item's position differs from the first item's. -/
def shouldSplit (pos : Item → Pt) (density : ℚ) (items : List Item) : Bool :=
  if (items.length : ℚ) < density then false
  else !allSameAsHead pos items

/-- The centroid computed at the top of `split`: componentwise sum of the
items' positions divided by their number. -/
def centroid (pos : Item → Pt) (items : List Item) : Pt :=
  ((items.map fun i => (pos i).1).sum / (items.length : ℚ),
   (items.map fun i => (pos i).2).sum / (items.length : ℚ))

/-- The `min` corner of child `q` created by `split` of a node with bounds
`mn`/`mx` and centroid `c`. -/
def quadMin (mn : XPt) (c : Pt) : ℕ → XPt
  | 0 => mn
  | 1 => (mn.1, .fin c.2)
  | 2 => (.fin c.1, mn.2)
  | 3 => (.fin c.1, .fin c.2)
  | _ + 4 => (.fin c.1, .fin c.2)

/-- The `max` corner of child `q` created by `split`. -/
def quadMax (mx : XPt) (c : Pt) : ℕ → XPt
  | 0 => (.fin c.1, .fin c.2)
  | 1 => (.fin c.1, mx.2)
  | 2 => (mx.1, .fin c.2)
  | 3 => mx
  | _ + 4 => mx

/-- The four empty children plus `center` that `split` installs, before the
node's items are re-inserted.  The source clears `this.items` with `splice(0)`
after the re-insertion loop and nothing reads them in between, so the skeleton
is built with `items = []` directly. -/
def mkSplit (pos : Item → Pt) (mn mx : XPt) (items : List Item) : Tree :=
  let c := centroid pos items
  Tree.inner mn mx c []
    (.leaf (quadMin mn c 0) (quadMax mx c 0) [])
    (.leaf (quadMin mn c 1) (quadMax mx c 1) [])
    (.leaf (quadMin mn c 2) (quadMax mx c 2) [])
    (.leaf (quadMin mn c 3) (quadMax mx c 3) [])

/-- Sequential re-insertion of a list of items with a fixed one-item step,
used for the `for` loop in `split`. -/
def foldAdd (step : Tree → Path → Idx → Item → Option (Tree × Idx)) :
    Tree → Path → Idx → List Item → Option (Tree × Idx)
  | t, _, idx, [] => some (t, idx)
  | t, p, idx, it :: rest =>
    match step t p idx it with
    | none => none
    | some (t', idx') => foldAdd step t' p idx' rest

/-- The `add` method, relative to the subtree `t` at root path `p`: drill to
the target leaf; if it `shouldSplit`, split it (install the skeleton and
re-insert its items, which may cascade) and add again from the split node;
otherwise push the item and point the reverse index at the leaf.  `fuel`
bounds the recursion depth; a real run always has enough. -/
def addGo (pos : Item → Pt) (density : ℚ) :
    ℕ → Tree → Path → Idx → Item → Option (Tree × Idx)
  | 0, _, _, _, _ => none
  | f + 1, .leaf mn mx items, p, idx, it =>
    if shouldSplit pos density items then
      match foldAdd (addGo pos density f) (mkSplit pos mn mx items) p idx items with
      | none => none
      | some (t', idx') => addGo pos density f t' p idx' it
    else some (.leaf mn mx (items ++ [it]), mapSet idx it p)
  | f + 1, .inner mn mx c l c0 c1 c2 c3, p, idx, it =>
    if (pos it).1 < c.1 then
      if (pos it).2 < c.2 then
        (addGo pos density f c0 (p ++ [0]) idx it).map
          fun r => (.inner mn mx c l r.1 c1 c2 c3, r.2)
      else
        (addGo pos density f c1 (p ++ [1]) idx it).map
          fun r => (.inner mn mx c l c0 r.1 c2 c3, r.2)
    else
      if (pos it).2 < c.2 then
        (addGo pos density f c2 (p ++ [2]) idx it).map
          fun r => (.inner mn mx c l c0 c1 r.1 c3, r.2)
      else
        (addGo pos density f c3 (p ++ [3]) idx it).map
          fun r => (.inner mn mx c l c0 c1 c2 r.1, r.2)

/-- The public `add`, invoked on the root. -/
def add (pos : Item → Pt) (density : ℚ) (f : ℕ) (st : St) (it : Item) :
    Option St :=
  (addGo pos density f st.tree [] st.idx it).map fun r => ⟨r.1, r.2⟩

/-- Splice of the first occurrence of `item` out of a node's `items`
(`indexOf` + `splice(index, 1)`). -/
def removeItem (it : Item) : Tree → Tree
  | .leaf mn mx l => .leaf mn mx (l.erase it)
  | .inner mn mx c l c0 c1 c2 c3 => .inner mn mx c (l.erase it) c0 c1 c2 c3

/-- The `collapse` method's effect on the parent node: absorb the four
children's `items` (in order) after its own and drop the children. -/
def collapse : Tree → Tree
  | .inner mn mx _ l c0 c1 c2 c3 =>
    .leaf mn mx (l ++ (c0.its ++ c1.its ++ c2.its ++ c3.its))
  | t => t

/-- The guard in `remove`: the container's parent exists (`p ≠ []` supplies
it), all four of its children are leaves, and the sum of their item counts
times `thrash` is below `density`.  Takes the parent node. -/
def collapseCond (thrash density : ℚ) : Tree → Bool
  | .leaf _ _ _ => false
  | .inner _ _ _ _ c0 c1 c2 c3 =>
    c0.isLeaf && c1.isLeaf && c2.isLeaf && c3.isLeaf &&
      decide (((c0.its.length + c1.its.length + c2.its.length
        + c3.its.length : ℕ) : ℚ) * thrash < density)

/-- The public `remove`: look the item up in the reverse index (absent →
no-op), splice it out of its container's `items` (absent there → no-op),
then check the container's parent for collapse.  Note the source never
deletes the item's own entry from `itemToTreeMap`.  The `nodeAt = none`
branches are unreachable when the index is in sync with the tree (JS holds
a direct object reference). -/
def remove (thrash density : ℚ) (st : St) (it : Item) : St :=
  match mapGet st.idx it with
  | none => st
  | some p =>
    match nodeAt st.tree p with
    | none => st
    | some container =>
      if it ∈ container.its then
        let t1 := modifyAt st.tree p (removeItem it)
        match p with
        | [] => ⟨t1, st.idx⟩
        | _ :: _ =>
          let pp := p.dropLast
          match nodeAt t1 pp with
          | none => ⟨t1, st.idx⟩
          | some par =>
            if collapseCond thrash density par then
              ⟨modifyAt t1 pp collapse, setAll st.idx (collapse par).its pp⟩
            else ⟨t1, st.idx⟩
      else st

/-- The public `update`: an unindexed item is handed to `add`; an indexed
item whose position still lies inside its container's half-open bounds is
left alone; otherwise it is removed and re-added from the root. -/
def update (pos : Item → Pt) (density thrash : ℚ) (f : ℕ) (st : St)
    (it : Item) : Option St :=
  match mapGet st.idx it with
  | none => add pos density f st it
  | some p =>
    match nodeAt st.tree p with
    | none => some st
    | some container =>
      if XQ.le container.minB.1 (.fin (pos it).1) &&
          XQ.lt (.fin (pos it).1) container.maxB.1 &&
          XQ.le container.minB.2 (.fin (pos it).2) &&
          XQ.lt (.fin (pos it).2) container.maxB.2 then
        some st
      else add pos density f (remove thrash density st it) it

/-- Every item stored in a leaf, children in quadrant order (the default
iterator yields exactly the leaves' items; its stack order differs but every
claim about it is order-insensitive). -/
def leafItems : Tree → List Item
  | .leaf _ _ l => l
  | .inner _ _ _ _ c0 c1 c2 c3 =>
    leafItems c0 ++ leafItems c1 ++ leafItems c2 ++ leafItems c3

/-- Every item sitting in any node's `items` field, internal nodes included. -/
def allItems : Tree → List Item
  | .leaf _ _ l => l
  | .inner _ _ _ l c0 c1 c2 c3 =>
    l ++ (allItems c0 ++ allItems c1 ++ allItems c2 ++ allItems c3)

/-- The per-item test in `iterateBox` on a leaf: inclusive on both ends of
both axes. -/
def inBox (minX minY maxX maxY : ℚ) (p : Pt) : Bool :=
  decide (minX ≤ p.1) && decide (minY ≤ p.2) &&
    decide (maxX ≥ p.1) && decide (maxY ≥ p.2)

/-- The rectangle-overlap pruning test `iterateBox` applies to a child before
pushing it (inclusive on both axes; touching edges overlap). -/
def boxOverlap (minX minY maxX maxY : ℚ) (t : Tree) : Bool :=
  XQ.le (.fin minX) t.maxB.1 && XQ.le t.minB.1 (.fin maxX) &&
    XQ.le t.minB.2 (.fin maxY) && XQ.le (.fin minY) t.maxB.2

/-- The `iterateBox`/`box` query: prune children by `boxOverlap`, filter leaf
items by `inBox`.  The work-list order of the source differs; the result is
the same multiset. -/
def box (pos : Item → Pt) (minX minY maxX maxY : ℚ) : Tree → List Item
  | .leaf _ _ l => l.filter fun it => inBox minX minY maxX maxY (pos it)
  | .inner _ _ _ _ c0 c1 c2 c3 =>
    (if boxOverlap minX minY maxX maxY c0 then box pos minX minY maxX maxY c0 else []) ++
    (if boxOverlap minX minY maxX maxY c1 then box pos minX minY maxX maxY c1 else []) ++
    (if boxOverlap minX minY maxX maxY c2 then box pos minX minY maxX maxY c2 else []) ++
    (if boxOverlap minX minY maxX maxY c3 then box pos minX minY maxX maxY c3 else [])

/-- Squared Euclidean distance between two finite points. -/
def distSq (a b : Pt) : ℚ := (a.1 - b.1) ^ 2 + (a.2 - b.2) ^ 2

/-- The `iterateRadius`/`radius` query: box query over the bounding square
refined by the exact squared-distance test. -/
def radius (pos : Item → Pt) (x y r : ℚ) (t : Tree) : List Item :=
  (box pos (x - r) (y - r) (x + r) (y + r) t).filter fun it =>
    decide (distSq (x, y) (pos it) ≤ r ^ 2)

/-- One ring batch of `iterateNearest` is sorted ascending by squared
distance to the query point.  The source uses the engine's stable
`Array.prototype.sort` with a numeric comparator; insertion sort realises the
same contract (a stable sort by that key). -/
def sortByDist (pos : Item → Pt) (x y : ℚ) (l : List Item) : List Item :=
  l.insertionSort fun a b => distSq (x, y) (pos a) ≤ distSq (x, y) (pos b)

/-- Leaf items of the three children other than child `q`: the leaves newly
visited when the scope widens one level (the `closed` set has already
consumed child `q`'s subtree). -/
def otherItems (c0 c1 c2 c3 : Tree) : ℕ → List Item
  | 0 => leafItems c1 ++ (leafItems c2 ++ leafItems c3)
  | 1 => leafItems c0 ++ (leafItems c2 ++ leafItems c3)
  | 2 => leafItems c0 ++ (leafItems c1 ++ leafItems c3)
  | _ => leafItems c0 ++ (leafItems c1 ++ leafItems c2)

/-- The ring batches of `iterateNearest`, innermost first, for the scope
seeded at the end of path `sp`: the first batch is the whole seed subtree;
each widening to an ancestor contributes the not-yet-closed leaves, i.e. the
other three children's subtrees at that level.  Intra-batch pre-sort order
differs from the source's stack order, which only permutes ties. -/
def ringsAux (pos : Item → Pt) (x y : ℚ) : Tree → Path → List (List Item)
  | t, [] => [sortByDist pos x y (leafItems t)]
  | .leaf mn mx l, _ :: _ => [sortByDist pos x y (leafItems (.leaf mn mx l))]
  | .inner mn mx c l c0 c1 c2 c3, q :: rest =>
    match q with
    | 0 => ringsAux pos x y c0 rest ++ [sortByDist pos x y (otherItems c0 c1 c2 c3 0)]
    | 1 => ringsAux pos x y c1 rest ++ [sortByDist pos x y (otherItems c0 c1 c2 c3 1)]
    | 2 => ringsAux pos x y c2 rest ++ [sortByDist pos x y (otherItems c0 c1 c2 c3 2)]
    | 3 => ringsAux pos x y c3 rest ++ [sortByDist pos x y (otherItems c0 c1 c2 c3 3)]
    | _ + 4 => [sortByDist pos x y (leafItems (.inner mn mx c l c0 c1 c2 c3))]

/-- The seed scope of `iterateNearest`: the grandparent of the leaf the query
point drills to, else its parent, else the leaf itself
(`cur.parent?.parent ?? cur.parent ?? cur`). -/
def seedPath (t : Tree) (x y : ℚ) : Path :=
  ((drill t x y).dropLast).dropLast

/-- The ring batches of `iterateNearest t x y`. -/
def rings (pos : Item → Pt) (t : Tree) (x y : ℚ) : List (List Item) :=
  ringsAux pos x y t (seedPath t x y)

/-- The full (finite) sequence `iterateNearest` yields. -/
def iterateNearest (pos : Item → Pt) (t : Tree) (x y : ℚ) : List Item :=
  (rings pos t x y).flatten

/-- The public `nearest`: pull at most `count` items from `iterateNearest`.
(The source's pull loop stops at the first falsy value; item objects are
truthy, so that is exhaustion of the generator.) -/
def nearest (pos : Item → Pt) (t : Tree) (x y : ℚ) (count : ℕ) : List Item :=
  (iterateNearest pos t x y).take count

/-- The root constructor as called publicly: validates `density`, then builds
a root with infinite bounds, no parent and a fresh index. -/
def construct (density : ℚ) : Except String St :=
  if density ≤ 1 then .error "density must be 2 or more"
  else .ok ⟨.leaf (.negInf, .negInf) (.posInf, .posInf) [], []⟩

/-- The empty tree a successful construction returns. -/
def emptySt : St := ⟨.leaf (.negInf, .negInf) (.posInf, .posInf) [], []⟩

/-- Iterated public `add` with the same fuel per call. -/
def addAll (pos : Item → Pt) (density : ℚ) (f : ℕ) (st : St) :
    List Item → Option St
  | [] => some st
  | it :: rest =>
    match add pos density f st it with
    | none => none
    | some st' => addAll pos density f st' rest

/-- Half-open membership of a point in a node's bounds, as `update` tests it
(`min ≤ pos < max` on each axis). -/
def inBounds (mn mx : XPt) (p : Pt) : Bool :=
  XQ.le mn.1 (.fin p.1) && XQ.lt (.fin p.1) mx.1 &&
    XQ.le mn.2 (.fin p.2) && XQ.lt (.fin p.2) mx.2

/-- The structural invariant of claim C8: every node is a leaf or has `items`
empty and four children whose bounds are exactly the half-open quadrants of
its own bounds at its `center`. -/
def structInv : Tree → Bool
  | .leaf _ _ _ => true
  | .inner mn mx c l c0 c1 c2 c3 =>
    l.isEmpty &&
    decide (c0.minB = quadMin mn c 0) && decide (c0.maxB = quadMax mx c 0) &&
    decide (c1.minB = quadMin mn c 1) && decide (c1.maxB = quadMax mx c 1) &&
    decide (c2.minB = quadMin mn c 2) && decide (c2.maxB = quadMax mx c 2) &&
    decide (c3.minB = quadMin mn c 3) && decide (c3.maxB = quadMax mx c 3) &&
    structInv c0 && structInv c1 && structInv c2 && structInv c3

/-- Well-formedness for query claims: the structural invariant, each internal
node's `center` lying inside its bounds, and every leaf item positioned
inside its leaf's half-open bounds (positions unchanged since insertion). -/
def wf (pos : Item → Pt) : Tree → Bool
  | .leaf mn mx l => l.all fun it => inBounds mn mx (pos it)
  | .inner mn mx c l c0 c1 c2 c3 =>
    l.isEmpty &&
    XQ.le mn.1 (.fin c.1) && XQ.le (.fin c.1) mx.1 &&
    XQ.le mn.2 (.fin c.2) && XQ.le (.fin c.2) mx.2 &&
    decide (c0.minB = quadMin mn c 0) && decide (c0.maxB = quadMax mx c 0) &&
    decide (c1.minB = quadMin mn c 1) && decide (c1.maxB = quadMax mx c 1) &&
    decide (c2.minB = quadMin mn c 2) && decide (c2.maxB = quadMax mx c 2) &&
    decide (c3.minB = quadMin mn c 3) && decide (c3.maxB = quadMax mx c 3) &&
    wf pos c0 && wf pos c1 && wf pos c2 && wf pos c3

/-- The quadrant index the drill comparison chooses for a point: the child
of an internal node with center `c` whose region contains `pt` under the
half-open rule (ties to the `≥` branch). -/
def quadOf (c pt : Pt) : ℕ :=
  if pt.1 < c.1 then (if pt.2 < c.2 then 0 else 1)
  else if pt.2 < c.2 then 2 else 3

/-- A concrete position function used by witnesses: item `i` sits at
`(i, 0)`. -/
def wPos : Item → Pt := fun i => ((i : ℚ), 0)

/-- Positions of the repository test's four points: items 1..4 at
`(1,1)`, `(1,-1)`, `(-1,1)`, `(-1,-1)`. -/
def wPos2 : Item → Pt := fun i =>
  if i = 1 then (1, 1) else if i = 2 then (1, -1)
  else if i = 3 then (-1, 1) else (-1, -1)

/-- The state of the repository test just before the split: three items in
the root leaf, density 3. -/
def wSplitSt : St :=
  ⟨.leaf (.negInf, .negInf) (.posInf, .posInf) [1, 2, 3],
   [(1, []), (2, []), (3, [])]⟩

/-- The state of the repository test after the split and after removing item
1: children hold 1, 1, 1 and 0 items, and item 1's index entry is stale. -/
def wRmSt : St :=
  ⟨.inner (.negInf, .negInf) (.posInf, .posInf) (1 / 3, 1 / 3) []
    (.leaf (.negInf, .negInf) (.fin (1 / 3), .fin (1 / 3)) [4])
    (.leaf (.negInf, .fin (1 / 3)) (.fin (1 / 3), .posInf) [3])
    (.leaf (.fin (1 / 3), .negInf) (.posInf, .fin (1 / 3)) [2])
    (.leaf (.fin (1 / 3), .fin (1 / 3)) (.posInf, .posInf) []),
   [(1, [3]), (2, [2]), (3, [1]), (4, [0])]⟩

/-- A concrete well-formed split tree used by witnesses: center `(2, 0)`,
item 1 in the upper-left child, items 3 and 4 in the upper-right child. -/
def wTree : Tree :=
  .inner (.negInf, .negInf) (.posInf, .posInf) (2, 0) []
    (.leaf (.negInf, .negInf) (.fin 2, .fin 0) [])
    (.leaf (.negInf, .fin 0) (.fin 2, .posInf) [1])
    (.leaf (.fin 2, .negInf) (.posInf, .fin 0) [])
    (.leaf (.fin 2, .fin 0) (.posInf, .posInf) [3, 4])

end D2

namespace D2

/-! Order lemmas for extended coordinates. -/

theorem XQ.le_refl (a : XQ) : XQ.le a a = true := by
  cases a <;> simp [XQ.le]

theorem XQ.le_trans {a b c : XQ} (h1 : XQ.le a b = true) (h2 : XQ.le b c = true) :
    XQ.le a c = true := by
  cases a <;> cases b <;> cases c <;> simp_all [XQ.le]
  exact h1.trans h2

theorem XQ.le_of_lt {a b : XQ} (h : XQ.lt a b = true) : XQ.le a b = true := by
  cases a <;> cases b <;> simp_all [XQ.le, XQ.lt]
  exact h.le

theorem XQ.lt_of_lt_of_le {a b c : XQ} (h1 : XQ.lt a b = true)
    (h2 : XQ.le b c = true) : XQ.lt a c = true := by
  cases a <;> cases b <;> cases c <;> simp_all [XQ.le, XQ.lt]
  exact h1.trans_le h2

theorem XQ.lt_of_le_of_lt {a b c : XQ} (h1 : XQ.le a b = true)
    (h2 : XQ.lt b c = true) : XQ.lt a c = true := by
  cases a <;> cases b <;> cases c <;> simp_all [XQ.le, XQ.lt]
  exact h1.trans_lt h2

/-! Generic lemmas about paths, the index and membership. -/

theorem mem_allItems_of_nodeAt :
    ∀ (t : Tree) (p : Path) (c : Tree), nodeAt t p = some c →
      ∀ x ∈ c.its, x ∈ allItems t := by
  intro t
  induction t with
  | leaf mn mx l =>
    intro p c h x hx
    cases p with
    | nil => cases h; exact hx
    | cons q rest => simp [nodeAt] at h
  | inner mn mx ctr l c0 c1 c2 c3 ih0 ih1 ih2 ih3 =>
    intro p c h x hx
    cases p with
    | nil =>
      cases h
      exact List.mem_append_left _ hx
    | cons q rest =>
      rcases q with _ | _ | _ | _ | q <;> simp only [nodeAt] at h
      · have hh := ih0 _ _ h x hx
        simp only [allItems, List.mem_append]
        tauto
      · have hh := ih1 _ _ h x hx
        simp only [allItems, List.mem_append]
        tauto
      · have hh := ih2 _ _ h x hx
        simp only [allItems, List.mem_append]
        tauto
      · have hh := ih3 _ _ h x hx
        simp only [allItems, List.mem_append]
        tauto
      · exact absurd h (by simp)

theorem allSameAsHead_of_const {pos : Item → Pt} {p0 : Pt} :
    ∀ {l : List Item}, (∀ i ∈ l, pos i = p0) → allSameAsHead pos l = true := by
  intro l h
  cases l with
  | nil => rfl
  | cons i0 rest =>
    simp only [allSameAsHead, List.all_eq_true, decide_eq_true_eq]
    intro j hj
    rw [h j (List.mem_cons_of_mem _ hj), h i0 (List.mem_cons_self _ _)]

theorem shouldSplit_of_const {pos : Item → Pt} {density : ℚ} {l : List Item}
    {p0 : Pt} (h : ∀ i ∈ l, pos i = p0) : shouldSplit pos density l = false := by
  unfold shouldSplit
  rw [allSameAsHead_of_const h]
  simp

theorem addAll_coincident {pos : Item → Pt} {density : ℚ} {p0 : Pt} (f : ℕ) :
    ∀ (l acc : List Item) (idx : Idx) (mn mx : XPt),
      (∀ i ∈ acc, pos i = p0) → (∀ i ∈ l, pos i = p0) →
      addAll pos density (f + 1) ⟨.leaf mn mx acc, idx⟩ l
        = some ⟨.leaf mn mx (acc ++ l), setAll idx l []⟩ := by
  intro l
  induction l with
  | nil => intro acc idx mn mx _ _; simp [addAll, setAll]
  | cons it rest ih =>
    intro acc idx mn mx hacc hl
    have hss : shouldSplit pos density acc = false := shouldSplit_of_const hacc
    have step : add pos density (f + 1) ⟨.leaf mn mx acc, idx⟩ it
        = some ⟨.leaf mn mx (acc ++ [it]), mapSet idx it []⟩ := by
      simp [add, addGo, hss]
    have hacc' : ∀ i ∈ acc ++ [it], pos i = p0 := by
      intro i hi
      rcases List.mem_append.1 hi with h | h
      · exact hacc i h
      · rcases List.mem_singleton.1 h with rfl
        exact hl i (List.mem_cons_self _ _)
    have hl' : ∀ i ∈ rest, pos i = p0 := fun i hi => hl i (List.mem_cons_of_mem _ hi)
    calc addAll pos density (f + 1) ⟨.leaf mn mx acc, idx⟩ (it :: rest)
        = addAll pos density (f + 1) ⟨.leaf mn mx (acc ++ [it]), mapSet idx it []⟩ rest := by
          simp [addAll, step]
      _ = some ⟨.leaf mn mx ((acc ++ [it]) ++ rest), setAll (mapSet idx it []) rest []⟩ :=
          ih _ _ mn mx hacc' hl'
      _ = some ⟨.leaf mn mx (acc ++ it :: rest), setAll idx (it :: rest) []⟩ := by
          simp [setAll, List.append_assoc]

theorem allSameAsHead_eq_true_iff {pos : Item → Pt} {l : List Item} :
    allSameAsHead pos l = true ↔ ∀ i ∈ l, ∀ j ∈ l, pos i = pos j := by
  cases l with
  | nil => simp [allSameAsHead]
  | cons i0 rest =>
    simp only [allSameAsHead, List.all_eq_true, decide_eq_true_eq]
    constructor
    · intro h i hi j hj
      have hi' : pos i = pos i0 := by
        rcases List.mem_cons.1 hi with rfl | hi'
        · rfl
        · exact h _ hi'
      have hj' : pos j = pos i0 := by
        rcases List.mem_cons.1 hj with rfl | hj'
        · rfl
        · exact h _ hj'
      rw [hi', hj']
    · intro h j hj
      exact h j (List.mem_cons_of_mem _ hj) i0 (List.mem_cons_self _ _)

theorem addGo_isLeaf_false {pos : Item → Pt} {density : ℚ} {f : ℕ} {t : Tree}
    {p : Path} {idx : Idx} {it : Item} {out : Tree × Idx}
    (h : addGo pos density f t p idx it = some out) (ht : t.isLeaf = false) :
    out.1.isLeaf = false := by
  cases f with
  | zero => simp [addGo] at h
  | succ f =>
    cases t with
    | leaf mn mx l => simp [Tree.isLeaf] at ht
    | inner mn mx c l c0 c1 c2 c3 =>
      simp only [addGo] at h
      split at h <;> split at h <;>
        · rcases Option.map_eq_some'.1 h with ⟨r, _, hr⟩
          rw [← hr]
          rfl

theorem foldAdd_isLeaf_false {pos : Item → Pt} {density : ℚ} {f : ℕ} :
    ∀ {l : List Item} {t : Tree} {p : Path} {idx : Idx} {out : Tree × Idx},
      foldAdd (addGo pos density f) t p idx l = some out → t.isLeaf = false →
      out.1.isLeaf = false := by
  intro l
  induction l with
  | nil =>
    intro t p idx out h ht
    cases h; exact ht
  | cons it rest ih =>
    intro t p idx out h ht
    simp only [foldAdd] at h
    cases hstep : addGo pos density f t p idx it with
    | none => rw [hstep] at h; exact absurd h (by simp)
    | some r =>
      rw [hstep] at h
      exact ih h (addGo_isLeaf_false hstep ht)

/-! Lemmas for the box/radius refinement. -/

theorem inBounds_mono {mn mx mn' mx' : XPt} {p : Pt}
    (h1 : XQ.le mn'.1 mn.1 = true) (h2 : XQ.le mn'.2 mn.2 = true)
    (h3 : XQ.le mx.1 mx'.1 = true) (h4 : XQ.le mx.2 mx'.2 = true)
    (h : inBounds mn mx p = true) : inBounds mn' mx' p = true := by
  simp only [inBounds, Bool.and_eq_true] at h ⊢
  obtain ⟨⟨⟨ha, hb⟩, hc⟩, hd⟩ := h
  exact ⟨⟨⟨XQ.le_trans h1 ha, XQ.lt_of_lt_of_le hb h3⟩, XQ.le_trans h2 hc⟩,
    XQ.lt_of_lt_of_le hd h4⟩

theorem leafItems_inBounds {pos : Item → Pt} :
    ∀ {t : Tree}, wf pos t = true → ∀ x ∈ leafItems t,
      inBounds t.minB t.maxB (pos x) = true := by
  intro t
  induction t with
  | leaf mn mx l =>
    intro hwf x hx
    simp only [wf, List.all_eq_true] at hwf
    exact hwf x hx
  | inner mn mx c l c0 c1 c2 c3 ih0 ih1 ih2 ih3 =>
    intro hwf x hx
    simp only [wf, Bool.and_eq_true, decide_eq_true_eq] at hwf
    obtain ⟨⟨⟨⟨⟨⟨⟨⟨⟨⟨⟨⟨⟨⟨⟨⟨he, hcx1⟩, hcx2⟩, hcy1⟩, hcy2⟩, e0a⟩, e0b⟩, e1a⟩,
      e1b⟩, e2a⟩, e2b⟩, e3a⟩, e3b⟩, w0⟩, w1⟩, w2⟩, w3⟩ := hwf
    simp only [leafItems, List.mem_append] at hx
    rcases hx with ((h | h) | h) | h
    · have hb := ih0 w0 x h
      refine inBounds_mono ?_ ?_ ?_ ?_ hb
      · rw [e0a]; exact XQ.le_refl _
      · rw [e0a]; exact XQ.le_refl _
      · rw [e0b]; exact hcx2
      · rw [e0b]; exact hcy2
    · have hb := ih1 w1 x h
      refine inBounds_mono ?_ ?_ ?_ ?_ hb
      · rw [e1a]; exact XQ.le_refl _
      · rw [e1a]; exact hcy1
      · rw [e1b]; exact hcx2
      · rw [e1b]; exact XQ.le_refl _
    · have hb := ih2 w2 x h
      refine inBounds_mono ?_ ?_ ?_ ?_ hb
      · rw [e2a]; exact hcx1
      · rw [e2a]; exact XQ.le_refl _
      · rw [e2b]; exact XQ.le_refl _
      · rw [e2b]; exact hcy2
    · have hb := ih3 w3 x h
      refine inBounds_mono ?_ ?_ ?_ ?_ hb
      · rw [e3a]; exact hcx1
      · rw [e3a]; exact hcy1
      · rw [e3b]; exact XQ.le_refl _
      · rw [e3b]; exact XQ.le_refl _

theorem wf_children {pos : Item → Pt} {mn mx : XPt} {c : Pt} {l : List Item}
    {c0 c1 c2 c3 : Tree}
    (hwf : wf pos (.inner mn mx c l c0 c1 c2 c3) = true) :
    wf pos c0 = true ∧ wf pos c1 = true ∧ wf pos c2 = true ∧ wf pos c3 = true := by
  simp only [wf, Bool.and_eq_true] at hwf
  exact ⟨hwf.1.1.1.2, hwf.1.1.2, hwf.1.2, hwf.2⟩

theorem not_inBox_of_not_overlap {minX minY maxX maxY : ℚ} {t : Tree} {p : Pt}
    (hov : boxOverlap minX minY maxX maxY t = false)
    (hin : inBounds t.minB t.maxB p = true) :
    inBox minX minY maxX maxY p = false := by
  cases hb : inBox minX minY maxX maxY p with
  | false => rfl
  | true =>
    exfalso
    simp only [inBox, Bool.and_eq_true, decide_eq_true_eq] at hb
    obtain ⟨⟨⟨hA, hB⟩, hC⟩, hD⟩ := hb
    simp only [inBounds, Bool.and_eq_true] at hin
    obtain ⟨⟨⟨ha, hb'⟩, hc⟩, hd⟩ := hin
    have hov' : boxOverlap minX minY maxX maxY t = true := by
      simp only [boxOverlap, Bool.and_eq_true]
      refine ⟨⟨⟨?_, ?_⟩, ?_⟩, ?_⟩
      · exact XQ.le_trans (by simpa [XQ.le] using hA) (XQ.le_of_lt hb')
      · exact XQ.le_trans ha (by simpa [XQ.le] using hC)
      · exact XQ.le_trans hc (by simpa [XQ.le] using hD)
      · exact XQ.le_trans (by simpa [XQ.le] using hB) (XQ.le_of_lt hd)
    rw [hov] at hov'
    exact Bool.false_ne_true hov'

theorem box_eq_filter {pos : Item → Pt} {minX minY maxX maxY : ℚ} :
    ∀ {t : Tree}, wf pos t = true →
      box pos minX minY maxX maxY t
        = (leafItems t).filter fun it => inBox minX minY maxX maxY (pos it) := by
  intro t
  induction t with
  | leaf mn mx l => intro _; rfl
  | inner mn mx c l c0 c1 c2 c3 ih0 ih1 ih2 ih3 =>
    intro hwf
    obtain ⟨w0, w1, w2, w3⟩ := wf_children hwf
    have piece : ∀ ci : Tree, wf pos ci = true →
        (wf pos ci = true →
          box pos minX minY maxX maxY ci
            = (leafItems ci).filter fun it => inBox minX minY maxX maxY (pos it)) →
        (if boxOverlap minX minY maxX maxY ci then box pos minX minY maxX maxY ci
          else [])
          = (leafItems ci).filter fun it => inBox minX minY maxX maxY (pos it) := by
      intro ci hci ihci
      cases hov : boxOverlap minX minY maxX maxY ci with
      | true => simpa [hov] using ihci hci
      | false =>
        rw [if_neg (by simp [hov])]
        symm
        rw [List.filter_eq_nil_iff]
        intro a ha
        rw [not_inBox_of_not_overlap hov (leafItems_inBounds hci a ha)]
        exact Bool.false_ne_true
    simp only [box, leafItems, List.filter_append]
    rw [piece c0 w0 ih0, piece c1 w1 ih1, piece c2 w2 ih2, piece c3 w3 ih3]

theorem inBox_of_distSq_le {x y r : ℚ} {p : Pt} (hr : 0 ≤ r)
    (hd : distSq (x, y) p ≤ r ^ 2) :
    inBox (x - r) (y - r) (x + r) (y + r) p = true := by
  have h1 : (x - p.1) ^ 2 ≤ r ^ 2 := by
    have := sq_nonneg (y - p.2)
    simp only [distSq] at hd
    nlinarith
  have h2 : (y - p.2) ^ 2 ≤ r ^ 2 := by
    have := sq_nonneg (x - p.1)
    simp only [distSq] at hd
    nlinarith
  simp only [inBox, Bool.and_eq_true, decide_eq_true_eq]
  refine ⟨⟨⟨?_, ?_⟩, ?_⟩, ?_⟩ <;> nlinarith

/-! Lemmas about the nearest-neighbour rings. -/

theorem sortByDist_sorted {pos : Item → Pt} {x y : ℚ} {l : List Item} :
    List.Sorted (fun a b => distSq (x, y) (pos a) ≤ distSq (x, y) (pos b))
      (sortByDist pos x y l) := by
  haveI : IsTotal Item (fun a b => distSq (x, y) (pos a) ≤ distSq (x, y) (pos b)) :=
    ⟨fun a b => le_total _ _⟩
  haveI : IsTrans Item (fun a b => distSq (x, y) (pos a) ≤ distSq (x, y) (pos b)) :=
    ⟨fun _ _ _ hab hbc => le_trans hab hbc⟩
  exact List.sorted_insertionSort _ _

theorem sortByDist_perm {pos : Item → Pt} {x y : ℚ} (l : List Item) :
    (sortByDist pos x y l).Perm l :=
  List.perm_insertionSort _ l

theorem mem_ringsAux {pos : Item → Pt} {x y : ℚ} :
    ∀ (t : Tree) (sp : Path) (ring : List Item), ring ∈ ringsAux pos x y t sp →
      ∃ l0, ring = sortByDist pos x y l0 := by
  intro t
  induction t with
  | leaf mn mx l =>
    intro sp ring h
    cases sp <;> · rw [List.mem_singleton.1 h]; exact ⟨_, rfl⟩
  | inner mn mx c l c0 c1 c2 c3 ih0 ih1 ih2 ih3 =>
    intro sp ring h
    cases sp with
    | nil => rw [List.mem_singleton.1 h]; exact ⟨_, rfl⟩
    | cons q rest =>
      rcases q with _ | _ | _ | _ | q <;> simp only [ringsAux] at h
      · rcases List.mem_append.1 h with h' | h'
        · exact ih0 rest ring h'
        · rw [List.mem_singleton.1 h']; exact ⟨_, rfl⟩
      · rcases List.mem_append.1 h with h' | h'
        · exact ih1 rest ring h'
        · rw [List.mem_singleton.1 h']; exact ⟨_, rfl⟩
      · rcases List.mem_append.1 h with h' | h'
        · exact ih2 rest ring h'
        · rw [List.mem_singleton.1 h']; exact ⟨_, rfl⟩
      · rcases List.mem_append.1 h with h' | h'
        · exact ih3 rest ring h'
        · rw [List.mem_singleton.1 h']; exact ⟨_, rfl⟩
      · rw [List.mem_singleton.1 h]; exact ⟨_, rfl⟩

theorem ringsAux_flatten_perm {pos : Item → Pt} {x y : ℚ} :
    ∀ (t : Tree) (sp : Path), ((ringsAux pos x y t sp).flatten).Perm (leafItems t) := by
  intro t
  induction t with
  | leaf mn mx l =>
    intro sp
    cases sp <;> simpa [ringsAux, leafItems] using @sortByDist_perm pos x y l
  | inner mn mx c l c0 c1 c2 c3 ih0 ih1 ih2 ih3 =>
    intro sp
    cases sp with
    | nil =>
      simpa [ringsAux] using
        @sortByDist_perm pos x y (leafItems (.inner mn mx c l c0 c1 c2 c3))
    | cons q rest =>
      rw [List.perm_iff_count]
      intro a
      have hs : ∀ l' : List Item, (sortByDist pos x y l').count a = l'.count a :=
        fun l' => (sortByDist_perm l').count_eq a
      rcases q with _ | _ | _ | _ | q <;>
        simp only [ringsAux, List.flatten_append, List.flatten_cons, List.flatten_nil,
          List.count_append, List.append_nil, hs, leafItems, otherItems,
          (ih0 rest).count_eq, (ih1 rest).count_eq, (ih2 rest).count_eq,
          (ih3 rest).count_eq] <;> omega

/-! Lemmas for the structural invariant (claim C8). -/

theorem XQ.le_fin_fin {a b : ℚ} : XQ.le (.fin a) (.fin b) = decide (a ≤ b) := rfl

theorem XQ.lt_fin_fin {a b : ℚ} : XQ.lt (.fin a) (.fin b) = decide (a < b) := by
  by_cases h : b ≤ a
  · simp [XQ.lt, XQ.le, h, not_lt.2 h]
  · simp [XQ.lt, XQ.le, h, lt_of_not_le h]

theorem structInv_parts {mn mx : XPt} {c : Pt} {l : List Item}
    {c0 c1 c2 c3 : Tree} (h : structInv (.inner mn mx c l c0 c1 c2 c3) = true) :
    l.isEmpty = true ∧
      c0.minB = quadMin mn c 0 ∧ c0.maxB = quadMax mx c 0 ∧
      c1.minB = quadMin mn c 1 ∧ c1.maxB = quadMax mx c 1 ∧
      c2.minB = quadMin mn c 2 ∧ c2.maxB = quadMax mx c 2 ∧
      c3.minB = quadMin mn c 3 ∧ c3.maxB = quadMax mx c 3 ∧
      structInv c0 = true ∧ structInv c1 = true ∧
      structInv c2 = true ∧ structInv c3 = true := by
  simp only [structInv, Bool.and_eq_true, decide_eq_true_eq] at h
  obtain ⟨⟨⟨⟨⟨⟨⟨⟨⟨⟨⟨⟨he, e0a⟩, e0b⟩, e1a⟩, e1b⟩, e2a⟩, e2b⟩, e3a⟩, e3b⟩,
    s0⟩, s1⟩, s2⟩, s3⟩ := h
  exact ⟨he, e0a, e0b, e1a, e1b, e2a, e2b, e3a, e3b, s0, s1, s2, s3⟩

theorem structInv_mk {mn mx : XPt} {c : Pt} {l : List Item} {c0 c1 c2 c3 : Tree}
    (he : l.isEmpty = true)
    (e0a : c0.minB = quadMin mn c 0) (e0b : c0.maxB = quadMax mx c 0)
    (e1a : c1.minB = quadMin mn c 1) (e1b : c1.maxB = quadMax mx c 1)
    (e2a : c2.minB = quadMin mn c 2) (e2b : c2.maxB = quadMax mx c 2)
    (e3a : c3.minB = quadMin mn c 3) (e3b : c3.maxB = quadMax mx c 3)
    (s0 : structInv c0 = true) (s1 : structInv c1 = true)
    (s2 : structInv c2 = true) (s3 : structInv c3 = true) :
    structInv (.inner mn mx c l c0 c1 c2 c3) = true := by
  simp only [structInv, Bool.and_eq_true, decide_eq_true_eq]
  exact ⟨⟨⟨⟨⟨⟨⟨⟨⟨⟨⟨⟨he, e0a⟩, e0b⟩, e1a⟩, e1b⟩, e2a⟩, e2b⟩, e3a⟩, e3b⟩,
    s0⟩, s1⟩, s2⟩, s3⟩

theorem structInv_mkSplit {pos : Item → Pt} {mn mx : XPt} {items : List Item} :
    structInv (mkSplit pos mn mx items) = true := by
  simp [mkSplit, structInv, Tree.minB, Tree.maxB]

theorem foldAdd_pres {step : Tree → Path → Idx → Item → Option (Tree × Idx)}
    {P : Tree → Prop}
    (hstep : ∀ {t : Tree} {p : Path} {idx : Idx} {it : Item} {out : Tree × Idx},
      step t p idx it = some out → P t → P out.1) :
    ∀ {l : List Item} {t : Tree} {p : Path} {idx : Idx} {out : Tree × Idx},
      foldAdd step t p idx l = some out → P t → P out.1 := by
  intro l
  induction l with
  | nil => intro t p idx out h hp; cases h; exact hp
  | cons it rest ih =>
    intro t p idx out h hp
    simp only [foldAdd] at h
    cases hs : step t p idx it with
    | none => rw [hs] at h; exact absurd h (by simp)
    | some r =>
      obtain ⟨t1, idx1⟩ := r
      rw [hs] at h
      replace h : foldAdd step t1 p idx1 rest = some out := h
      exact ih h (hstep hs hp)

theorem addGo_pres {pos : Item → Pt} {density : ℚ} :
    ∀ (f : ℕ) {t : Tree} {p : Path} {idx : Idx} {it : Item} {out : Tree × Idx},
      addGo pos density f t p idx it = some out →
      out.1.minB = t.minB ∧ out.1.maxB = t.maxB ∧
        (structInv t = true → structInv out.1 = true) := by
  intro f
  induction f with
  | zero => intro t p idx it out h; simp [addGo] at h
  | succ f ih =>
    intro t p idx it out h
    cases t with
    | leaf mn mx items =>
      by_cases hs : shouldSplit pos density items = true
      · simp only [addGo, hs, if_true] at h
        cases hf : foldAdd (addGo pos density f) (mkSplit pos mn mx items) p idx items with
        | none => rw [hf] at h; exact absurd h (by simp)
        | some r =>
          obtain ⟨t1, idx1⟩ := r
          rw [hf] at h
          replace h : addGo pos density f t1 p idx1 it = some out := h
          have hstepP : ∀ {t' : Tree} {p' : Path} {idx' : Idx} {it' : Item}
              {out' : Tree × Idx},
              addGo pos density f t' p' idx' it' = some out' →
              (t'.minB = mn ∧ t'.maxB = mx ∧ structInv t' = true) →
              out'.1.minB = mn ∧ out'.1.maxB = mx ∧ structInv out'.1 = true := by
            intro t' p' idx' it' out' ha hp
            obtain ⟨b1, b2, si⟩ := ih ha
            exact ⟨b1.trans hp.1, b2.trans hp.2.1, si hp.2.2⟩
          have hP := foldAdd_pres hstepP hf ⟨rfl, rfl, structInv_mkSplit⟩
          obtain ⟨hb1, hb2, hsi⟩ := hstepP h hP
          exact ⟨hb1, hb2, fun _ => hsi⟩
      · have hs' : shouldSplit pos density items = false := Bool.eq_false_iff.2 hs
        simp only [addGo, hs', Bool.false_eq_true, if_false] at h
        cases h
        exact ⟨rfl, rfl, fun _ => rfl⟩
    | inner mn mx c l c0 c1 c2 c3 =>
      simp only [addGo] at h
      split at h <;> split at h <;>
        · rcases Option.map_eq_some'.1 h with ⟨r, hr, hout⟩
          obtain ⟨b1, b2, si⟩ := ih hr
          subst hout
          refine ⟨rfl, rfl, fun hsi => ?_⟩
          obtain ⟨he, e0a, e0b, e1a, e1b, e2a, e2b, e3a, e3b, s0, s1, s2, s3⟩ :=
            structInv_parts hsi
          first
          | exact structInv_mk he (b1.trans e0a) (b2.trans e0b) e1a e1b e2a e2b
              e3a e3b (si s0) s1 s2 s3
          | exact structInv_mk he e0a e0b (b1.trans e1a) (b2.trans e1b) e2a e2b
              e3a e3b s0 (si s1) s2 s3
          | exact structInv_mk he e0a e0b e1a e1b (b1.trans e2a) (b2.trans e2b)
              e3a e3b s0 s1 (si s2) s3
          | exact structInv_mk he e0a e0b e1a e1b e2a e2b (b1.trans e3a)
              (b2.trans e3b) s0 s1 s2 (si s3)

theorem modifyAt_pres {g : Tree → Tree}
    (hg : ∀ s, structInv s = true →
      structInv (g s) = true ∧ (g s).minB = s.minB ∧ (g s).maxB = s.maxB) :
    ∀ (t : Tree) (p : Path), structInv t = true →
      structInv (modifyAt t p g) = true ∧
        (modifyAt t p g).minB = t.minB ∧ (modifyAt t p g).maxB = t.maxB := by
  intro t
  induction t with
  | leaf mn mx l =>
    intro p h
    cases p with
    | nil => exact hg _ h
    | cons q rest => exact ⟨rfl, rfl, rfl⟩
  | inner mn mx c l c0 c1 c2 c3 ih0 ih1 ih2 ih3 =>
    intro p h
    cases p with
    | nil => exact hg _ h
    | cons q rest =>
      obtain ⟨he, e0a, e0b, e1a, e1b, e2a, e2b, e3a, e3b, s0, s1, s2, s3⟩ :=
        structInv_parts h
      rcases q with _ | _ | _ | _ | q
      · obtain ⟨hs', hb1, hb2⟩ := ih0 rest s0
        exact ⟨structInv_mk he (hb1.trans e0a) (hb2.trans e0b) e1a e1b e2a e2b
          e3a e3b hs' s1 s2 s3, rfl, rfl⟩
      · obtain ⟨hs', hb1, hb2⟩ := ih1 rest s1
        exact ⟨structInv_mk he e0a e0b (hb1.trans e1a) (hb2.trans e1b) e2a e2b
          e3a e3b s0 hs' s2 s3, rfl, rfl⟩
      · obtain ⟨hs', hb1, hb2⟩ := ih2 rest s2
        exact ⟨structInv_mk he e0a e0b e1a e1b (hb1.trans e2a) (hb2.trans e2b)
          e3a e3b s0 s1 hs' s3, rfl, rfl⟩
      · obtain ⟨hs', hb1, hb2⟩ := ih3 rest s3
        exact ⟨structInv_mk he e0a e0b e1a e1b e2a e2b (hb1.trans e3a)
          (hb2.trans e3b) s0 s1 s2 hs', rfl, rfl⟩
      · exact ⟨h, rfl, rfl⟩

theorem removeItem_pres (it : Item) : ∀ s : Tree, structInv s = true →
    structInv (removeItem it s) = true ∧
      (removeItem it s).minB = s.minB ∧ (removeItem it s).maxB = s.maxB := by
  intro s h
  cases s with
  | leaf mn mx l => exact ⟨rfl, rfl, rfl⟩
  | inner mn mx c l c0 c1 c2 c3 =>
    obtain ⟨he, _⟩ := structInv_parts h
    rcases List.isEmpty_iff.1 he with rfl
    exact ⟨h, rfl, rfl⟩

theorem collapse_pres : ∀ s : Tree, structInv s = true →
    structInv (collapse s) = true ∧
      (collapse s).minB = s.minB ∧ (collapse s).maxB = s.maxB := by
  intro s h
  cases s with
  | leaf mn mx l => exact ⟨h, rfl, rfl⟩
  | inner mn mx c l c0 c1 c2 c3 => exact ⟨rfl, rfl, rfl⟩

theorem nodeAt_append : ∀ (p1 p2 : Path) (t : Tree),
    nodeAt t (p1 ++ p2) = (nodeAt t p1).bind fun s => nodeAt s p2 := by
  intro p1
  induction p1 with
  | nil => intro p2 t; simp [nodeAt]
  | cons a p1 ih =>
    intro p2 t
    cases t with
    | leaf mn mx l => simp [nodeAt]
    | inner mn mx c l c0 c1 c2 c3 =>
      rcases a with _ | _ | _ | _ | a <;> simp [nodeAt, ih]

theorem modifyAt_append : ∀ (p1 p2 : Path) (g : Tree → Tree) (t : Tree),
    modifyAt t (p1 ++ p2) g = modifyAt t p1 fun s => modifyAt s p2 g := by
  intro p1
  induction p1 with
  | nil => intro p2 g t; simp [modifyAt]
  | cons a p1 ih =>
    intro p2 g t
    cases t with
    | leaf mn mx l => simp [modifyAt]
    | inner mn mx c l c0 c1 c2 c3 =>
      rcases a with _ | _ | _ | _ | a <;> simp [modifyAt, ih]

theorem nodeAt_modifyAt : ∀ (p : Path) (g : Tree → Tree) (t : Tree),
    nodeAt (modifyAt t p g) p = (nodeAt t p).map g := by
  intro p
  induction p with
  | nil => intro g t; simp [nodeAt, modifyAt]
  | cons a p ih =>
    intro g t
    cases t with
    | leaf mn mx l => simp [nodeAt, modifyAt]
    | inner mn mx c l c0 c1 c2 c3 =>
      rcases a with _ | _ | _ | _ | a <;> simp [nodeAt, modifyAt, ih]

theorem isLeaf_modifyAt_cons (a : ℕ) (as : Path) (g : Tree → Tree) (t : Tree) :
    (modifyAt t (a :: as) g).isLeaf = t.isLeaf := by
  cases t with
  | leaf mn mx l => rfl
  | inner mn mx c l c0 c1 c2 c3 =>
    rcases a with _ | _ | _ | _ | a <;> rfl

theorem mapGet_mapSet : ∀ (m : Idx) (k : Item) (v : Path) (j : Item),
    mapGet (mapSet m k v) j = if k = j then some v else mapGet m j := by
  intro m
  induction m with
  | nil =>
    intro k v j
    by_cases h : k = j <;> simp [mapSet, mapGet, h]
  | cons kv rest ih =>
    intro k v j
    obtain ⟨k', v'⟩ := kv
    by_cases h1 : k' = k
    · subst h1
      by_cases h2 : k' = j <;> simp [mapSet, mapGet, h2]
    · by_cases h2 : k' = j
      · subst h2
        have : ¬ k = k' := fun h => h1 h.symm
        simp [mapSet, mapGet, h1, this, ih]
      · simp [mapSet, mapGet, h1, h2, ih]

theorem mapGet_setAll : ∀ (l : List Item) (m : Idx) (v : Path) (j : Item),
    mapGet (setAll m l v) j = if j ∈ l then some v else mapGet m j := by
  intro l
  induction l with
  | nil => intro m v j; simp [setAll, mapGet]
  | cons it rest ih =>
    intro m v j
    have hsa : setAll m (it :: rest) v = setAll (mapSet m it v) rest v := rfl
    rw [hsa, ih, mapGet_mapSet]
    by_cases h1 : j ∈ rest
    · simp [h1]
    · by_cases h2 : it = j
      · subst h2
        simp [h1]
      · have hne : ¬ j = it := fun h => h2 h.symm
        have hni : j ∉ it :: rest := by simp [List.mem_cons, h1, hne]
        simp [h1, h2, hni]

theorem collapseCond_inner {thrash density : ℚ} {mn mx : XPt} {c : Pt}
    {l : List Item} {d0 d1 d2 d3 : Tree} :
    collapseCond thrash density (.inner mn mx c l d0 d1 d2 d3) = true ↔
      (d0.isLeaf = true ∧ d1.isLeaf = true ∧ d2.isLeaf = true ∧
        d3.isLeaf = true ∧
        ((d0.its.length + d1.its.length + d2.its.length + d3.its.length : ℕ) : ℚ)
          * thrash < density) := by
  simp [collapseCond, Bool.and_eq_true, decide_eq_true_eq, and_assoc]

theorem remove_shape (thrash density : ℚ) (st : St) (it : Item) :
    remove thrash density st it = st ∨
      (∃ p, remove thrash density st it
        = ⟨modifyAt st.tree p (removeItem it), st.idx⟩) ∨
      (∃ p par, remove thrash density st it
        = ⟨modifyAt (modifyAt st.tree p (removeItem it)) p.dropLast collapse,
           setAll st.idx (collapse par).its p.dropLast⟩) := by
  cases hg : mapGet st.idx it with
  | none => exact Or.inl (by simp [remove, hg])
  | some p =>
    cases hn : nodeAt st.tree p with
    | none => exact Or.inl (by simp [remove, hg, hn])
    | some container =>
      by_cases hm : it ∈ container.its
      · cases p with
        | nil => exact Or.inr (Or.inl ⟨[], by simp [remove, hg, hn, hm]⟩)
        | cons q rest =>
          cases hn2 : nodeAt (modifyAt st.tree (q :: rest) (removeItem it))
              ((q :: rest).dropLast) with
          | none =>
            exact Or.inr (Or.inl ⟨q :: rest, by simp [remove, hg, hn, hm, hn2]⟩)
          | some par =>
            by_cases hc : collapseCond thrash density par = true
            · exact Or.inr (Or.inr ⟨q :: rest, par,
                by simp [remove, hg, hn, hm, hn2, hc]⟩)
            · exact Or.inr (Or.inl ⟨q :: rest,
                by simp [remove, hg, hn, hm, hn2, hc]⟩)
      · exact Or.inl (by simp [remove, hg, hn, hm])

theorem update_shape (pos : Item → Pt) (density thrash : ℚ) (f : ℕ) (st : St)
    (it : Item) :
    update pos density thrash f st it = some st ∨
      update pos density thrash f st it = add pos density f st it ∨
      update pos density thrash f st it
        = add pos density f (remove thrash density st it) it := by
  cases hg : mapGet st.idx it with
  | none => exact Or.inr (Or.inl (by simp [update, hg]))
  | some p =>
    cases hn : nodeAt st.tree p with
    | none => exact Or.inl (by simp [update, hg, hn])
    | some container =>
      by_cases hb : (XQ.le container.minB.1 (.fin (pos it).1) &&
          XQ.lt (.fin (pos it).1) container.maxB.1 &&
          XQ.le container.minB.2 (.fin (pos it).2) &&
          XQ.lt (.fin (pos it).2) container.maxB.2) = true
      · exact Or.inl (by simp [update, hg, hn, hb])
      · exact Or.inr (Or.inr (by simp [update, hg, hn, hb]))

theorem c4_aux (thrash density : ℚ) (st : St) (it : Item) (pp : Path) (q : ℕ)
    (cont : Tree) (mn mx : XPt) (c : Pt) (l : List Item) (d0 d1 d2 d3 : Tree)
    (hg : mapGet st.idx it = some (pp ++ [q]))
    (hn0 : nodeAt st.tree (pp ++ [q]) = some cont)
    (hm : it ∈ cont.its)
    (hpar1 : nodeAt (modifyAt st.tree (pp ++ [q]) (removeItem it)) pp
      = some (.inner mn mx c l d0 d1 d2 d3))
    (hparshape : ∃ pmn pmx pc pl e0 e1 e2 e3,
      nodeAt st.tree pp = some (.inner pmn pmx pc pl e0 e1 e2 e3)) :
    ((∃ mn' mx' l', nodeAt (remove thrash density st it).tree pp
        = some (.leaf mn' mx' l')) ↔
      (d0.isLeaf = true ∧ d1.isLeaf = true ∧ d2.isLeaf = true ∧
        d3.isLeaf = true ∧
        ((d0.its.length + d1.its.length + d2.its.length
          + d3.its.length : ℕ) : ℚ) * thrash < density)) ∧
    (collapseCond thrash density (.inner mn mx c l d0 d1 d2 d3) = true →
      nodeAt (remove thrash density st it).tree pp
          = some (.leaf mn mx (l ++ (d0.its ++ d1.its ++ d2.its ++ d3.its))) ∧
        ∀ j ∈ l ++ (d0.its ++ d1.its ++ d2.its ++ d3.its),
          mapGet (remove thrash density st it).idx j = some pp) ∧
    (∀ ppp q', pp = ppp ++ [q'] →
      ∃ n, nodeAt (remove thrash density st it).tree ppp = some n ∧
        n.isLeaf = false) := by
  have hd : (pp ++ [q]).dropLast = pp := List.dropLast_concat
  obtain ⟨a, rest, har⟩ : ∃ a rest, pp ++ [q] = a :: rest := by
    cases pp with
    | nil => exact ⟨q, [], rfl⟩
    | cons x xs => exact ⟨x, xs ++ [q], rfl⟩
  have hres : remove thrash density st it
      = if collapseCond thrash density (.inner mn mx c l d0 d1 d2 d3) = true then
          ⟨modifyAt (modifyAt st.tree (pp ++ [q]) (removeItem it)) pp collapse,
           setAll st.idx (l ++ (d0.its ++ d1.its ++ d2.its ++ d3.its)) pp⟩
        else ⟨modifyAt st.tree (pp ++ [q]) (removeItem it), st.idx⟩ := by
    have hd' : (a :: rest).dropLast = pp := by rw [← har]; exact hd
    have hco : (collapse (Tree.inner mn mx c l d0 d1 d2 d3)).its
        = l ++ (d0.its ++ d1.its ++ d2.its ++ d3.its) := rfl
    rw [har] at hg hn0 hpar1 ⊢
    simp [remove, hg, hn0, hm, hd', hpar1, hco]
  refine ⟨?_, ?_, ?_⟩
  · by_cases hc : collapseCond thrash density (.inner mn mx c l d0 d1 d2 d3) = true
    · rw [hres, if_pos hc]
      dsimp only
      constructor
      · intro _
        exact collapseCond_inner.1 hc
      · intro _
        refine ⟨mn, mx, l ++ (d0.its ++ d1.its ++ d2.its ++ d3.its), ?_⟩
        rw [nodeAt_modifyAt, hpar1]
        rfl
    · rw [hres, if_neg hc]
      dsimp only
      constructor
      · rintro ⟨mn', mx', l', hleaf⟩
        rw [hpar1] at hleaf
        cases hleaf
      · intro hspec
        exact absurd (collapseCond_inner.2 hspec) hc
  · intro hc
    rw [hres, if_pos hc]
    dsimp only
    constructor
    · rw [nodeAt_modifyAt, hpar1]
      rfl
    · intro j hj
      rw [mapGet_setAll, if_pos hj]
  · intro ppp q' hppq
    obtain ⟨pmn, pmx, pc, pl, e0, e1, e2, e3, hpar⟩ := hparshape
    subst hppq
    rw [nodeAt_append] at hpar
    cases hgp : nodeAt st.tree ppp with
    | none => rw [hgp] at hpar; exact absurd hpar (by simp)
    | some gp0 =>
      rw [hgp] at hpar
      simp only [Option.some_bind] at hpar
      have hgpL : gp0.isLeaf = false := by
        cases gp0 with
        | leaf a1 b1 l1 => simp [nodeAt] at hpar
        | inner a1 b1 c1 l1 g0 g1 g2 g3 => rfl
      have h1 : ((ppp ++ [q']) ++ [q] : Path) = ppp ++ (q' :: [q]) := by simp
      by_cases hc : collapseCond thrash density (.inner mn mx c l d0 d1 d2 d3) = true
      · rw [hres, if_pos hc]
        dsimp only
        refine ⟨modifyAt (modifyAt gp0 (q' :: [q]) (removeItem it)) [q'] collapse,
          ?_, ?_⟩
        · rw [h1, modifyAt_append ppp (q' :: [q]), modifyAt_append ppp [q'],
            nodeAt_modifyAt, nodeAt_modifyAt, hgp]
          rfl
        · rw [isLeaf_modifyAt_cons, isLeaf_modifyAt_cons]
          exact hgpL
      · rw [hres, if_neg hc]
        dsimp only
        refine ⟨modifyAt gp0 (q' :: [q]) (removeItem it), ?_, ?_⟩
        · rw [h1, modifyAt_append ppp (q' :: [q]), nodeAt_modifyAt, hgp]
          rfl
        · rw [isLeaf_modifyAt_cons]
          exact hgpL

/-! Claim theorems. -/

/-- C4: a removal that actually deletes an item — the item is indexed at a
path `pp ++ [q]`, so its container has a parent, and the container's `items`
hold it — collapses that parent iff (the parent exists and) all four of the
parent's post-splice children are leaves and the sum of their item counts
times `thrash` is below `density`.  When it collapses, all four children's
items move into the parent (after the parent's own) and every moved item's
reverse-index entry is re-pointed to the parent's path; and within the same
call nodes above the parent — in particular the grandparent — are never
collapsed. -/
theorem c4_remove_collapse_iff
    (thrash density : ℚ) (st : St) (it : Item) (pp : Path) (q : ℕ)
    (cont : Tree)
    (hg : mapGet st.idx it = some (pp ++ [q]))
    (hn : nodeAt st.tree (pp ++ [q]) = some cont)
    (hm : it ∈ cont.its) :
    ∃ mn mx c l d0 d1 d2 d3,
      nodeAt (modifyAt st.tree (pp ++ [q]) (removeItem it)) pp
          = some (.inner mn mx c l d0 d1 d2 d3) ∧
        ((∃ mn' mx' l', nodeAt (remove thrash density st it).tree pp
            = some (.leaf mn' mx' l')) ↔
          (d0.isLeaf = true ∧ d1.isLeaf = true ∧ d2.isLeaf = true ∧
            d3.isLeaf = true ∧
            ((d0.its.length + d1.its.length + d2.its.length
              + d3.its.length : ℕ) : ℚ) * thrash < density)) ∧
        (collapseCond thrash density (.inner mn mx c l d0 d1 d2 d3) = true →
          nodeAt (remove thrash density st it).tree pp
              = some (.leaf mn mx (l ++ (d0.its ++ d1.its ++ d2.its ++ d3.its))) ∧
            ∀ j ∈ l ++ (d0.its ++ d1.its ++ d2.its ++ d3.its),
              mapGet (remove thrash density st it).idx j = some pp) ∧
        (∀ ppp q', pp = ppp ++ [q'] →
          ∃ n, nodeAt (remove thrash density st it).tree ppp = some n ∧
            n.isLeaf = false) := by
  have hn0 := hn
  rw [nodeAt_append] at hn
  cases hpar : nodeAt st.tree pp with
  | none => rw [hpar] at hn; exact absurd hn (by simp)
  | some par0 =>
    rw [hpar] at hn
    simp only [Option.some_bind] at hn
    cases par0 with
    | leaf a1 b1 l1 => simp [nodeAt] at hn
    | inner mn mx c l c0 c1 c2 c3 =>
      have hparshape : ∃ pmn pmx pc pl e0 e1 e2 e3,
          nodeAt st.tree pp = some (.inner pmn pmx pc pl e0 e1 e2 e3) :=
        ⟨mn, mx, c, l, c0, c1, c2, c3, hpar⟩
      rcases q with _ | _ | _ | _ | q
      · replace hn : c0 = cont := by simpa [nodeAt] using hn
        subst hn
        have hpar1 : nodeAt (modifyAt st.tree (pp ++ [0]) (removeItem it)) pp
            = some (.inner mn mx c l (removeItem it c0) c1 c2 c3) := by
          rw [modifyAt_append, nodeAt_modifyAt, hpar]
          simp [modifyAt]
        exact ⟨mn, mx, c, l, removeItem it c0, c1, c2, c3, hpar1,
          c4_aux thrash density st it pp 0 c0 mn mx c l (removeItem it c0)
            c1 c2 c3 hg hn0 hm hpar1 hparshape⟩
      · replace hn : c1 = cont := by simpa [nodeAt] using hn
        subst hn
        have hpar1 : nodeAt (modifyAt st.tree (pp ++ [1]) (removeItem it)) pp
            = some (.inner mn mx c l c0 (removeItem it c1) c2 c3) := by
          rw [modifyAt_append, nodeAt_modifyAt, hpar]
          simp [modifyAt]
        exact ⟨mn, mx, c, l, c0, removeItem it c1, c2, c3, hpar1,
          c4_aux thrash density st it pp 1 c1 mn mx c l c0 (removeItem it c1)
            c2 c3 hg hn0 hm hpar1 hparshape⟩
      · replace hn : c2 = cont := by simpa [nodeAt] using hn
        subst hn
        have hpar1 : nodeAt (modifyAt st.tree (pp ++ [2]) (removeItem it)) pp
            = some (.inner mn mx c l c0 c1 (removeItem it c2) c3) := by
          rw [modifyAt_append, nodeAt_modifyAt, hpar]
          simp [modifyAt]
        exact ⟨mn, mx, c, l, c0, c1, removeItem it c2, c3, hpar1,
          c4_aux thrash density st it pp 2 c2 mn mx c l c0 c1 (removeItem it c2)
            c3 hg hn0 hm hpar1 hparshape⟩
      · replace hn : c3 = cont := by simpa [nodeAt] using hn
        subst hn
        have hpar1 : nodeAt (modifyAt st.tree (pp ++ [3]) (removeItem it)) pp
            = some (.inner mn mx c l c0 c1 c2 (removeItem it c3)) := by
          rw [modifyAt_append, nodeAt_modifyAt, hpar]
          simp [modifyAt]
        exact ⟨mn, mx, c, l, c0, c1, c2, removeItem it c3, hpar1,
          c4_aux thrash density st it pp 3 c3 mn mx c l c0 c1 c2
            (removeItem it c3) hg hn0 hm hpar1 hparshape⟩
      · simp [nodeAt] at hn

unseal Rat.add Rat.mul Rat.inv Rat.sub in
/-- Witness for C4: in the repository test's post-split state with item 1
already removed, removing item 4 (indexed at child 0 of the root) satisfies
all the theorem's hypotheses; the collapse condition holds there
(post-splice counts 0+1+1+0, times thrash 1.25, is below density 3). -/
theorem c4_remove_collapse_iff_witness :
    ∃ mn mx c l d0 d1 d2 d3,
      nodeAt (modifyAt wRmSt.tree ([] ++ [0]) (removeItem 4)) []
          = some (.inner mn mx c l d0 d1 d2 d3) ∧
        ((∃ mn' mx' l', nodeAt (remove (5 / 4) 3 wRmSt 4).tree []
            = some (.leaf mn' mx' l')) ↔
          (d0.isLeaf = true ∧ d1.isLeaf = true ∧ d2.isLeaf = true ∧
            d3.isLeaf = true ∧
            ((d0.its.length + d1.its.length + d2.its.length
              + d3.its.length : ℕ) : ℚ) * (5 / 4) < 3)) ∧
        (collapseCond (5 / 4) 3 (.inner mn mx c l d0 d1 d2 d3) = true →
          nodeAt (remove (5 / 4) 3 wRmSt 4).tree []
              = some (.leaf mn mx (l ++ (d0.its ++ d1.its ++ d2.its ++ d3.its))) ∧
            ∀ j ∈ l ++ (d0.its ++ d1.its ++ d2.its ++ d3.its),
              mapGet (remove (5 / 4) 3 wRmSt 4).idx j = some []) ∧
        (∀ ppp q', ([] : Path) = ppp ++ [q'] →
          ∃ n, nodeAt (remove (5 / 4) 3 wRmSt 4).tree ppp = some n ∧
            n.isLeaf = false) :=
  c4_remove_collapse_iff (5 / 4) 3 wRmSt 4 [] 0
    (.leaf (.negInf, .negInf) (.fin (1 / 3), .fin (1 / 3)) [4])
    (by decide) (by decide) (by decide)

/-- C8: every completed public operation (`add`, `remove`, `update`)
preserves the structural invariant — every node is a leaf or an internal
node with empty `items` and four children (the node type fixes exactly four)
whose bounds are exactly the half-open quadrants of the parent's bounds at
its `center`; those quadrants partition the parent region with no gaps or
overlaps (each in-bounds point lies in exactly the drill quadrant); and a
split sets the node's `center` to the arithmetic mean of the positions of
the items then present in the leaf. -/
theorem c8_structure_partition_centroid :
    (∀ (pos : Item → Pt) (density : ℚ) (f : ℕ) (st st' : St) (it : Item),
        add pos density f st it = some st' →
        structInv st.tree = true → structInv st'.tree = true) ∧
      (∀ (thrash density : ℚ) (st : St) (it : Item),
        structInv st.tree = true →
        structInv (remove thrash density st it).tree = true) ∧
      (∀ (pos : Item → Pt) (density thrash : ℚ) (f : ℕ) (st st' : St) (it : Item),
        update pos density thrash f st it = some st' →
        structInv st.tree = true → structInv st'.tree = true) ∧
      (∀ (mn mx : XPt) (c pt : Pt), inBounds mn mx pt = true →
        ∀ q : ℕ, q < 4 →
          (inBounds (quadMin mn c q) (quadMax mx c q) pt = true ↔ q = quadOf c pt)) ∧
      (∀ (pos : Item → Pt) (mn mx : XPt) (items : List Item), items ≠ [] →
        (mkSplit pos mn mx items).centerB.1 * (items.length : ℚ)
            = ((items.map fun i => (pos i).1).sum) ∧
          (mkSplit pos mn mx items).centerB.2 * (items.length : ℚ)
            = ((items.map fun i => (pos i).2).sum)) := by
  have addPart : ∀ (pos : Item → Pt) (density : ℚ) (f : ℕ) (st st' : St)
      (it : Item), add pos density f st it = some st' →
      structInv st.tree = true → structInv st'.tree = true := by
    intro pos density f st st' it h hsi
    unfold add at h
    rcases Option.map_eq_some'.1 h with ⟨r, hr, hout⟩
    have hout' := (addGo_pres f hr).2.2 hsi
    rw [← hout]
    exact hout'
  have removePart : ∀ (thrash density : ℚ) (st : St) (it : Item),
      structInv st.tree = true →
      structInv (remove thrash density st it).tree = true := by
    intro thrash density st it hsi
    rcases remove_shape thrash density st it with h | ⟨p, h⟩ | ⟨p, par, h⟩
    · rw [h]; exact hsi
    · rw [h]
      exact (modifyAt_pres (removeItem_pres it) st.tree p hsi).1
    · rw [h]
      have h1 := modifyAt_pres (removeItem_pres it) st.tree p hsi
      exact (modifyAt_pres collapse_pres _ p.dropLast h1.1).1
  refine ⟨addPart, removePart, ?_, ?_, ?_⟩
  · intro pos density thrash f st st' it h hsi
    rcases update_shape pos density thrash f st it with hs | hs | hs
    · rw [hs] at h
      cases h
      exact hsi
    · rw [hs] at h
      exact addPart pos density f st st' it h hsi
    · rw [hs] at h
      exact addPart pos density f _ st' it h (removePart thrash density st it hsi)
  · intro mn mx c pt hb q hq
    simp only [inBounds, Bool.and_eq_true] at hb
    obtain ⟨⟨⟨ha1, ha2⟩, ha3⟩, ha4⟩ := hb
    have hq0 : inBounds (quadMin mn c 0) (quadMax mx c 0) pt = true ↔
        (pt.1 < c.1 ∧ pt.2 < c.2) := by
      simp [inBounds, quadMin, quadMax, XQ.le_fin_fin, XQ.lt_fin_fin, ha1, ha3]
    have hq1 : inBounds (quadMin mn c 1) (quadMax mx c 1) pt = true ↔
        (pt.1 < c.1 ∧ c.2 ≤ pt.2) := by
      simp [inBounds, quadMin, quadMax, XQ.le_fin_fin, XQ.lt_fin_fin, ha1, ha4]
    have hq2 : inBounds (quadMin mn c 2) (quadMax mx c 2) pt = true ↔
        (c.1 ≤ pt.1 ∧ pt.2 < c.2) := by
      simp [inBounds, quadMin, quadMax, XQ.le_fin_fin, XQ.lt_fin_fin, ha2, ha3]
    have hq3 : inBounds (quadMin mn c 3) (quadMax mx c 3) pt = true ↔
        (c.1 ≤ pt.1 ∧ c.2 ≤ pt.2) := by
      simp [inBounds, quadMin, quadMax, XQ.le_fin_fin, XQ.lt_fin_fin, ha2, ha4]
    rcases lt_or_le pt.1 c.1 with hx | hx
    · rcases lt_or_le pt.2 c.2 with hy | hy
      · have hx' := not_le.2 hx
        have hy' := not_le.2 hy
        interval_cases q <;> simp [hq0, hq1, hq2, hq3, quadOf, hx, hy, hx', hy']
      · have hx' := not_le.2 hx
        have hy' := not_lt.2 hy
        interval_cases q <;> simp [hq0, hq1, hq2, hq3, quadOf, hx, hy, hx', hy']
    · rcases lt_or_le pt.2 c.2 with hy | hy
      · have hx' := not_lt.2 hx
        have hy' := not_le.2 hy
        interval_cases q <;> simp [hq0, hq1, hq2, hq3, quadOf, hx, hy, hx', hy']
      · have hx' := not_lt.2 hx
        have hy' := not_lt.2 hy
        interval_cases q <;> simp [hq0, hq1, hq2, hq3, quadOf, hx, hy, hx', hy']
  · intro pos mn mx items hne
    have hlen : ((items.length : ℚ)) ≠ 0 :=
      Nat.cast_ne_zero.2 fun h => hne (List.length_eq_zero.1 h)
    refine ⟨?_, ?_⟩
    · show ((items.map fun i => (pos i).1).sum / (items.length : ℚ))
          * (items.length : ℚ) = _
      exact div_mul_cancel₀ _ hlen
    · show ((items.map fun i => (pos i).2).sum / (items.length : ℚ))
          * (items.length : ℚ) = _
      exact div_mul_cancel₀ _ hlen

unseal Rat.add Rat.mul Rat.inv Rat.sub in
/-- Witness for C8: the repository test's split (density 3, three points in
the root leaf, adding the fourth) completes and yields a tree satisfying the
structural invariant. -/
theorem c8_structure_partition_centroid_witness :
    structInv (Tree.inner (.negInf, .negInf) (.posInf, .posInf) (1 / 3, 1 / 3) []
      (.leaf (.negInf, .negInf) (.fin (1 / 3), .fin (1 / 3)) [4])
      (.leaf (.negInf, .fin (1 / 3)) (.fin (1 / 3), .posInf) [3])
      (.leaf (.fin (1 / 3), .negInf) (.posInf, .fin (1 / 3)) [2])
      (.leaf (.fin (1 / 3), .fin (1 / 3)) (.posInf, .posInf) [1])) = true :=
  c8_structure_partition_centroid.1 wPos2 3 4 wSplitSt
    ⟨Tree.inner (.negInf, .negInf) (.posInf, .posInf) (1 / 3, 1 / 3) []
      (.leaf (.negInf, .negInf) (.fin (1 / 3), .fin (1 / 3)) [4])
      (.leaf (.negInf, .fin (1 / 3)) (.fin (1 / 3), .posInf) [3])
      (.leaf (.fin (1 / 3), .negInf) (.posInf, .fin (1 / 3)) [2])
      (.leaf (.fin (1 / 3), .fin (1 / 3)) (.posInf, .posInf) [1]),
     [(1, [3]), (2, [2]), (3, [1]), (4, [0])]⟩ 4 (by decide) (by decide)

/-- C2: on a well-formed tree whose items' positions are unchanged since
insertion, `box` returns exactly the items a brute-force scan with the
inclusive-both-ends rectangle predicate keeps, and `radius` (with a
non-negative radius) exactly those a brute-force scan with the
squared-distance predicate keeps. -/
theorem c2_box_radius_brute_force :
    ∀ (pos : Item → Pt) (t : Tree) (minX minY maxX maxY x y r : ℚ),
      wf pos t = true →
      (box pos minX minY maxX maxY t
          = (leafItems t).filter fun it =>
              decide (minX ≤ (pos it).1 ∧ (pos it).1 ≤ maxX ∧
                minY ≤ (pos it).2 ∧ (pos it).2 ≤ maxY)) ∧
        (0 ≤ r →
          radius pos x y r t
            = (leafItems t).filter fun it =>
                decide (distSq (x, y) (pos it) ≤ r ^ 2)) := by
  intro pos t minX minY maxX maxY x y r hwf
  constructor
  · rw [box_eq_filter hwf]
    apply List.filter_congr
    intro a _
    rw [Bool.eq_iff_iff]
    simp only [inBox, Bool.and_eq_true, decide_eq_true_eq]
    constructor
    · rintro ⟨⟨⟨hA, hB⟩, hC⟩, hD⟩; exact ⟨hA, hC, hB, hD⟩
    · rintro ⟨hA, hC, hB, hD⟩; exact ⟨⟨⟨hA, hB⟩, hC⟩, hD⟩
  · intro hr
    rw [radius, box_eq_filter hwf, List.filter_filter]
    apply List.filter_congr
    intro a _
    cases hd : decide (distSq (x, y) (pos a) ≤ r ^ 2) with
    | false => simp
    | true =>
      rw [inBox_of_distSq_le hr (of_decide_eq_true hd)]
      simp

/-- Witness for C2 on the concrete well-formed split tree: a box query and a
radius-2 query both agree with the brute-force filter. -/
theorem c2_box_radius_brute_force_witness :
    (box wPos 0 0 5 1 wTree
        = (leafItems wTree).filter fun it =>
            decide ((0 : ℚ) ≤ (wPos it).1 ∧ (wPos it).1 ≤ 5 ∧
              (0 : ℚ) ≤ (wPos it).2 ∧ (wPos it).2 ≤ 1)) ∧
      radius wPos 3 0 2 wTree
        = (leafItems wTree).filter fun it =>
            decide (distSq (3, 0) (wPos it) ≤ (2 : ℚ) ^ 2) :=
  ⟨(c2_box_radius_brute_force wPos wTree 0 0 5 1 3 0 2 (by decide)).1,
   (c2_box_radius_brute_force wPos wTree 0 0 5 1 3 0 2 (by decide)).2 (by norm_num)⟩

/-- C7: `nearest` returns at most `count` items, and within each single ring
batch of `iterateNearest` the items are in non-decreasing order of squared
Euclidean distance to the query point. -/
theorem c7_nearest_count_and_ring_order :
    (∀ (pos : Item → Pt) (t : Tree) (x y : ℚ) (count : ℕ),
        (nearest pos t x y count).length ≤ count) ∧
      (∀ (pos : Item → Pt) (t : Tree) (x y : ℚ) (ring : List Item),
        ring ∈ rings pos t x y →
        List.Sorted (fun a b => distSq (x, y) (pos a) ≤ distSq (x, y) (pos b)) ring) := by
  constructor
  · intro pos t x y count
    exact List.length_take_le _ _
  · intro pos t x y ring hring
    obtain ⟨l0, rfl⟩ := mem_ringsAux t (seedPath t x y) ring hring
    exact sortByDist_sorted

/-- Witness for C7's ring-order conjunct on a concrete split tree. -/
theorem c7_nearest_count_and_ring_order_witness :
    ∀ ring ∈ rings (fun i => ((i : ℚ), 0))
      (.inner (.negInf, .negInf) (.posInf, .posInf) (2, 0) []
        (.leaf (.negInf, .negInf) (.fin 2, .fin 0) [])
        (.leaf (.negInf, .fin 0) (.fin 2, .posInf) [1])
        (.leaf (.fin 2, .negInf) (.posInf, .fin 0) [])
        (.leaf (.fin 2, .fin 0) (.posInf, .posInf) [3, 4])) 3 0,
      List.Sorted (fun a b : Item => distSq ((3 : ℚ), (0 : ℚ)) ((a : ℚ), 0)
        ≤ distSq ((3 : ℚ), (0 : ℚ)) ((b : ℚ), 0)) ring := fun ring hring =>
  c7_nearest_count_and_ring_order.2 (fun i => ((i : ℚ), 0)) _ 3 0 ring hring

/-- C9: `iterateNearest` yields a finite sequence that is a permutation of
all items stored in the leaves (so it terminates after yielding each stored
item exactly once, and when the stored items are pairwise distinct each item
appears at most once). -/
theorem c9_iterateNearest_finite_no_dup :
    (∀ (pos : Item → Pt) (t : Tree) (x y : ℚ),
        (iterateNearest pos t x y).Perm (leafItems t)) ∧
      (∀ (pos : Item → Pt) (t : Tree) (x y : ℚ), (leafItems t).Nodup →
        ∀ it : Item, (iterateNearest pos t x y).count it ≤ 1) := by
  have main : ∀ (pos : Item → Pt) (t : Tree) (x y : ℚ),
      (iterateNearest pos t x y).Perm (leafItems t) := fun pos t x y =>
    ringsAux_flatten_perm t (seedPath t x y)
  refine ⟨main, fun pos t x y hnd it => ?_⟩
  exact List.nodup_iff_count_le_one.1 (((main pos t x y).nodup_iff).2 hnd) it

/-- Witness for C9 on a concrete split tree with distinct stored items. -/
theorem c9_iterateNearest_finite_no_dup_witness :
    (iterateNearest (fun i => ((i : ℚ), 0))
        (.inner (.negInf, .negInf) (.posInf, .posInf) (2, 0) []
          (.leaf (.negInf, .negInf) (.fin 2, .fin 0) [])
          (.leaf (.negInf, .fin 0) (.fin 2, .posInf) [1])
          (.leaf (.fin 2, .negInf) (.posInf, .fin 0) [])
          (.leaf (.fin 2, .fin 0) (.posInf, .posInf) [3, 4])) 3 0).count 3 ≤ 1 :=
  c9_iterateNearest_finite_no_dup.2 (fun i => ((i : ℚ), 0)) _ 3 0 (by decide) 3

/-- C6: construction fails with the validation error exactly when the
supplied density (an integer, per the configuration contract) is below 2,
and for density ≥ 2 it succeeds and produces a root leaf with infinite
bounds.  The code's check `density <= 1` coincides with `density < 2` on
integers. -/
theorem c6_construct_validation :
    ∀ d : ℤ, ((∃ msg, construct (d : ℚ) = .error msg) ↔ d < 2) ∧
      (2 ≤ d → construct (d : ℚ) = .ok emptySt) := by
  intro d
  have key : ((d : ℚ) ≤ 1) ↔ d < 2 := by
    rw [show (1 : ℚ) = ((1 : ℤ) : ℚ) by norm_num, Int.cast_le]
    omega
  by_cases hd : (d : ℚ) ≤ 1
  · refine ⟨⟨fun _ => key.1 hd,
      fun _ => ⟨"density must be 2 or more", by simp [construct, hd]⟩⟩, fun h2 => ?_⟩
    have := key.1 hd
    omega
  · refine ⟨⟨fun hmsg => ?_, fun hlt => absurd (key.2 hlt) hd⟩,
      fun _ => by simp [construct, hd, emptySt]⟩
    obtain ⟨msg, hmsg⟩ := hmsg
    simp [construct, hd] at hmsg

/-- Witness for C6: density 1 fails, density 2 succeeds with the
infinite-bounds root. -/
theorem c6_construct_validation_witness :
    ((∃ msg, construct ((1 : ℤ) : ℚ) = .error msg) ↔ (1 : ℤ) < 2) ∧
      construct ((2 : ℤ) : ℚ) = .ok emptySt :=
  ⟨(c6_construct_validation 1).1, (c6_construct_validation 2).2 (by decide)⟩

/-- C1: the claimed reverse-index invariant fails on the code, because
`remove` never deletes the removed item's entry from `itemToTreeMap`.
Adding a single item at the origin and then removing it completes both
operations, after which no leaf holds any item but the index still has one
entry mapping the item to the root. -/
theorem c1_remove_leaves_stale_index_entry :
    add (fun _ => ((0 : ℚ), (0 : ℚ))) 3 1 emptySt 0
        = some ⟨.leaf (.negInf, .negInf) (.posInf, .posInf) [0], [(0, [])]⟩ ∧
      remove (5 / 4) 3 ⟨.leaf (.negInf, .negInf) (.posInf, .posInf) [0], [(0, [])]⟩ 0
        = ⟨.leaf (.negInf, .negInf) (.posInf, .posInf) [], [(0, [])]⟩ ∧
      leafItems (.leaf (.negInf, .negInf) (.posInf, .posInf) []) = [] ∧
      ([((0 : Item), ([] : Path))] : Idx).length = 1 := by
  refine ⟨by decide, by decide, rfl, rfl⟩

/-- C5 counterexample: `update` of an item absent from the tree is not a
silent no-op — on the freshly constructed empty tree it changes the state
(it inserts the item, per the `add` delegation in the source). -/
theorem c5_update_absent_not_noop :
    update (fun _ => ((0 : ℚ), (0 : ℚ))) 3 (5 / 4) 1 emptySt 0 ≠ some emptySt := by
  decide

/-- C5 (amended): `remove` of an item not stored in any node's `items` is a
silent no-op leaving the entire state unchanged, while `update` of an item
with no index entry raises no error but behaves as `add`, inserting the
item. -/
theorem c5_remove_noop_update_delegates :
    (∀ (thrash density : ℚ) (st : St) (it : Item),
        it ∉ allItems st.tree → remove thrash density st it = st) ∧
      (∀ (pos : Item → Pt) (density thrash : ℚ) (f : ℕ) (st : St) (it : Item),
        mapGet st.idx it = none →
        update pos density thrash f st it = add pos density f st it) := by
  constructor
  · intro thrash density st it hab
    cases hg : mapGet st.idx it with
    | none => simp [remove, hg]
    | some p =>
      cases hn : nodeAt st.tree p with
      | none => simp [remove, hg, hn]
      | some container =>
        have hnot : it ∉ container.its := fun hmem =>
          hab (mem_allItems_of_nodeAt _ _ _ hn it hmem)
        simp [remove, hg, hn, hnot]
  · intro pos density thrash f st it hg
    unfold update
    rw [hg]

/-- Witness for C5's amended claim on concrete states. -/
theorem c5_remove_noop_update_delegates_witness :
    remove (5 / 4) 3 emptySt 0 = emptySt ∧
      update (fun _ => ((0 : ℚ), (0 : ℚ))) 3 (5 / 4) 1 emptySt 0
        = add (fun _ => ((0 : ℚ), (0 : ℚ))) 3 1 emptySt 0 :=
  ⟨c5_remove_noop_update_delegates.1 (5 / 4) 3 emptySt 0 (by decide),
   c5_remove_noop_update_delegates.2 _ 3 (5 / 4) 1 emptySt 0 (by decide)⟩

/-- C3: `shouldSplit` holds iff the leaf's item count has reached `density`
and not all of its items occupy the exact same position; a completed `add`
on a leaf leaves it a leaf iff `shouldSplit` was false there; and inserting
any list of items sharing one identical position into the empty tree
completes without ever splitting, producing the single root leaf holding
all of them in order (so its count may exceed `density` indefinitely). -/
theorem c3_split_iff_and_coincident_never_splits :
    (∀ (pos : Item → Pt) (density : ℚ) (items : List Item),
        shouldSplit pos density items = true ↔
          (density ≤ (items.length : ℚ) ∧
            ¬ ∀ i ∈ items, ∀ j ∈ items, pos i = pos j)) ∧
      (∀ (pos : Item → Pt) (density : ℚ) (f : ℕ) (mn mx : XPt)
          (items : List Item) (p : Path) (idx : Idx) (it : Item)
          (out : Tree × Idx),
        addGo pos density (f + 1) (.leaf mn mx items) p idx it = some out →
          (out.1.isLeaf = true ↔ shouldSplit pos density items = false)) ∧
      (∀ (pos : Item → Pt) (density : ℚ) (f : ℕ) (l : List Item) (p0 : Pt),
        (∀ i ∈ l, pos i = p0) →
        addAll pos density (f + 1) emptySt l
          = some ⟨.leaf (.negInf, .negInf) (.posInf, .posInf) l, setAll [] l []⟩) := by
  refine ⟨?_, ?_, ?_⟩
  · intro pos density items
    by_cases hlt : (items.length : ℚ) < density
    · rw [shouldSplit, if_pos hlt]
      simp only [Bool.false_eq_true, false_iff, not_and]
      intro hle
      exact absurd hlt (not_lt.2 hle)
    · rw [shouldSplit, if_neg hlt]
      constructor
      · intro h
        refine ⟨not_lt.1 hlt, fun hall => ?_⟩
        rw [allSameAsHead_eq_true_iff.2 hall] at h
        simp at h
      · rintro ⟨-, hnall⟩
        cases hs : allSameAsHead pos items with
        | false => rfl
        | true => exact absurd (allSameAsHead_eq_true_iff.1 hs) hnall
  · intro pos density f mn mx items p idx it out h
    by_cases hs : shouldSplit pos density items = true
    · simp only [addGo, hs, if_true] at h
      cases hf : foldAdd (addGo pos density f) (mkSplit pos mn mx items) p idx items with
      | none => rw [hf] at h; exact absurd h (by simp)
      | some r =>
        obtain ⟨t1, idx1⟩ := r
        rw [hf] at h
        have hinner : t1.isLeaf = false :=
          foldAdd_isLeaf_false hf (by rfl)
        have hout := addGo_isLeaf_false h hinner
        simp [hout, hs]
    · have hs' : shouldSplit pos density items = false := Bool.eq_false_iff.2 hs
      simp only [addGo, hs', Bool.false_eq_true, if_false] at h
      cases h
      simp [Tree.isLeaf, hs']
  · intro pos density f l p0 h
    have := @addAll_coincident pos density p0 f l [] []
      (.negInf, .negInf) (.posInf, .posInf) (by intro i hi; cases hi) h
    simpa [emptySt] using this

/-- Witness for C3: the leaf-stays-leaf direction on a concrete completed
add, and four coincident insertions with density 3 staying one leaf. -/
theorem c3_split_iff_witness :
    ((Tree.leaf (.negInf, .negInf) (.posInf, .posInf) ([9, 7] : List Item)).isLeaf = true ↔
        shouldSplit (fun _ => ((0 : ℚ), (0 : ℚ))) 3 [9] = false) ∧
      addAll (fun _ => ((0 : ℚ), (0 : ℚ))) 3 1 emptySt [5, 6, 7, 8]
        = some ⟨.leaf (.negInf, .negInf) (.posInf, .posInf) [5, 6, 7, 8],
            setAll [] [5, 6, 7, 8] []⟩ :=
  ⟨c3_split_iff_and_coincident_never_splits.2.1 (fun _ => ((0 : ℚ), (0 : ℚ))) 3 0
      (.negInf, .negInf) (.posInf, .posInf) [9] [] [] 7
      (⟨.leaf (.negInf, .negInf) (.posInf, .posInf) [9, 7], [(7, [])]⟩ : Tree × Idx)
      (by decide),
   c3_split_iff_and_coincident_never_splits.2.2 (fun _ => ((0 : ℚ), (0 : ℚ))) 3 0
      [5, 6, 7, 8] (0, 0) (by intro i _; rfl)⟩

end D2
